import Mathlib

set_option maxRecDepth 8000
set_option maxHeartbeats 1000000

/-
Verification of the transcript-to-audio core pipeline (`app.py`):
text normalization for speech, size-bounded chunking, audio-segment
merging, and the per-chunk synthesis orchestration loop.

Python strings are modelled as `List Char` (sequences of code points);
byte buffers as `List Nat`.  Regex-based transforms are embedded as
character-level scanners faithful to the specific patterns in the source
(left-to-right non-overlapping matching, greedy repetition, alternation
order, lookbehind/lookahead where the pattern has them).  Character
classes are the ASCII fragments exercised by the program's patterns.
-/

namespace TranscriptAudio

abbrev Str := List Char

/-- Python regex `\s` / `str.strip()` whitespace (ASCII fragment). -/
def pySpace (c : Char) : Bool :=
  c = ' ' || c = '\t' || c = '\n' || c = '\r' || c = '\x0b' || c = '\x0c'

/-- The sentence-terminating characters of the pattern `(?<=[.!?])\s+`. -/
def isSentEnd (c : Char) : Bool :=
  c = '.' || c = '!' || c = '?'

/-- Python regex `\w` (ASCII fragment): letters, digits, underscore. -/
def isWordChar (c : Char) : Bool :=
  c.isAlpha || c.isDigit || c = '_'

/-- `[A-Za-z]`: what `[A-Z]` and `[a-z]` match under `re.IGNORECASE`. -/
def isAsciiAlpha (c : Char) : Bool :=
  ('a' ≤ c && c ≤ 'z') || ('A' ≤ c && c ≤ 'Z')

/-- `str.lstrip()`. -/
def lstrip (s : Str) : Str := s.dropWhile pySpace

/-- `str.rstrip()`. -/
def rstrip (s : Str) : Str := (s.reverse.dropWhile pySpace).reverse

/-- `str.strip()`. -/
def pyStrip (s : Str) : Str := rstrip (lstrip s)

/-- Accumulator-based tokenizer: `acc` is the word currently being read,
reversed. -/
def tokensAux : Str → Str → List Str
  | [], acc => if acc.isEmpty then [] else [acc.reverse]
  | c :: cs, acc =>
    if pySpace c then
      if acc.isEmpty then tokensAux cs [] else acc.reverse :: tokensAux cs []
    else tokensAux cs (c :: acc)

/-- `str.split()` with no argument: maximal runs of non-whitespace. -/
def pySplitWs (s : Str) : List Str := tokensAux s []

/-- Engine for `re.split(r'(?<=[.!?])\s+', text)`: walks the text with the
previously consumed character (for the lookbehind) and cuts at each maximal
whitespace run that follows `.`/`!`/`?`.  Fuel-based so the kernel can
evaluate it; fuel = input length is always sufficient (each step consumes
at least one character). -/
def ssAux : Nat → Str → Char → Str × List Str
  | 0, s, _ => (s, [])
  | _ + 1, [], _ => ([], [])
  | fuel + 1, c :: cs, prev =>
    if pySpace c && isSentEnd prev then
      let r := (c :: cs).dropWhile pySpace
      let p := ssAux fuel r ' '
      ([], p.1 :: p.2)
    else
      let p := ssAux fuel cs c
      (c :: p.1, p.2)

/-- `re.split(r'(?<=[.!?])\s+', text)`.  At the start of the string the
lookbehind cannot match, which the initial `' '` (not a sentence end)
encodes. -/
def splitSentences (s : Str) : List Str :=
  let p := ssAux s.length s ' '
  p.1 :: p.2

/-- Python `' '.join(...)`. -/
def joinSp : List Str → Str
  | [] => []
  | [c] => c
  | c :: cs => c ++ ' ' :: joinSp cs

/-- Inner word loop of `chunk_text` (`app.py` lines 61-71): greedy
accumulation of words, flushing `current_chunk.strip()` when a word no
longer fits, truncating a word to `max_chars` when `current_chunk` is
empty.  Returns the chunks it emitted and the final `current_chunk`. -/
def chunkWords (maxc : Nat) : List Str → Str → List Str × Str
  | [], current => ([], current)
  | w :: ws, current =>
    if current.length + w.length + 1 > maxc then
      if current.isEmpty then
        let p := chunkWords maxc ws current
        (w.take maxc :: p.1, p.2)
      else
        let p := chunkWords maxc ws w
        (pyStrip current :: p.1, p.2)
    else
      chunkWords maxc ws (if current.isEmpty then w else current ++ ' ' :: w)

/-- Sentence loop of `chunk_text` (`app.py` lines 53-73).  When a sentence
does not fit and `current_chunk` is non-empty, the chunk is flushed and the
sentence becomes the new `current_chunk`; when `current_chunk` is empty the
sentence is split into words. -/
def chunkSentences (maxc : Nat) : List Str → Str → List Str × Str
  | [], current => ([], current)
  | s :: ss, current =>
    if current.length + s.length + 1 > maxc then
      if current.isEmpty then
        let pw := chunkWords maxc (pySplitWs s) current
        let ps := chunkSentences maxc ss pw.2
        (pw.1 ++ ps.1, ps.2)
      else
        let p := chunkSentences maxc ss s
        (pyStrip current :: p.1, p.2)
    else
      chunkSentences maxc ss (if current.isEmpty then s else current ++ ' ' :: s)

/-- `chunk_text(text, max_chars)` (`app.py` lines 42-78). -/
def chunk_text (text : Str) (maxc : Nat) : List Str :=
  if text.length ≤ maxc then [text]
  else
    let p := chunkSentences maxc (splitSentences text) []
    if p.2.isEmpty then p.1 else p.1 ++ [pyStrip p.2]

/-- Loop of `merge_audio_chunks` (`app.py` lines 92-99): the first chunk is
kept whole, every later chunk contributes `chunk[44:]` and only when its
length exceeds 44 bytes. -/
def mergeLoop : Nat → List (List Nat) → List Nat
  | _, [] => []
  | i, c :: cs =>
    (if i = 0 then c else if 44 < c.length then c.drop 44 else []) ++ mergeLoop (i + 1) cs

/-- `merge_audio_chunks(audio_chunks)` (`app.py` lines 80-101). -/
def merge_audio_chunks (audio_chunks : List (List Nat)) : List Nat :=
  match audio_chunks with
  | [] => []
  | [x] => x
  | _ => mergeLoop 0 audio_chunks

theorem mergeLoop_pos (cs : List (List Nat)) : ∀ i, i ≠ 0 →
    mergeLoop i cs = (cs.map (fun c => c.drop 44)).flatten := by
  induction cs with
  | nil => intro i h; simp [mergeLoop]
  | cons c cs ih =>
    intro i h
    simp only [mergeLoop, List.map_cons, List.flatten_cons, if_neg h]
    rw [ih (i + 1) (Nat.succ_ne_zero i)]
    by_cases h44 : 44 < c.length
    · simp [h44]
    · simp [h44, List.drop_eq_nil_of_le (Nat.le_of_not_lt h44)]

/-- Claim C1 (code bug): on input `"ab. " + "c"*20 + "."` with
`max_chars = 10`, `chunk_text` returns a second chunk of length 21 > 10:
a sentence that is assigned to `current_chunk` after a flush is emitted
whole, without ever reaching the word-splitting/truncation fallback, so
the documented bound `length(chunk) ≤ maxChars` fails. -/
theorem chunk_text_exceeds_budget :
    chunk_text ("ab. ".toList ++ List.replicate 20 'c' ++ ['.']) 10
      = ["ab.".toList, List.replicate 20 'c' ++ ['.']] ∧
    (List.replicate 20 'c' ++ ['.']).length = 21 := by decide

/-- Claim C2: `merge_audio_chunks` returns `b""` on `[]`, the single
segment unchanged on `[x]`, and for two or more segments the first
segment in full followed by `segment[44:]` of every later segment in
order (a segment of length ≤ 44 contributes `[]`, which `List.drop 44`
makes automatic). -/
theorem merge_audio_chunks_spec :
    merge_audio_chunks [] = [] ∧
    (∀ x : List Nat, merge_audio_chunks [x] = x) ∧
    (∀ (a : List Nat) (rest : List (List Nat)), rest ≠ [] →
      merge_audio_chunks (a :: rest) = a ++ (rest.map (fun c => c.drop 44)).flatten) := by
  refine ⟨rfl, fun x => rfl, ?_⟩
  intro a rest h
  obtain ⟨b, bs, rfl⟩ : ∃ b bs, rest = b :: bs := by
    cases rest with
    | nil => exact absurd rfl h
    | cons b bs => exact ⟨b, bs, rfl⟩
  show mergeLoop 0 (a :: b :: bs) = _
  have h0 : mergeLoop 0 (a :: b :: bs) = a ++ mergeLoop 1 (b :: bs) := by
    simp [mergeLoop]
  rw [h0, mergeLoop_pos (b :: bs) 1 one_ne_zero]

/-- Witness for C2: the segments-list hypothesis discharged on a concrete
three-segment input (each tail segment short, so each contributes
nothing). -/
theorem merge_audio_chunks_spec_witness :
    merge_audio_chunks [[1], [2], [3]] = [1] :=
  (merge_audio_chunks_spec.2.2 [1] [[2], [3]] (by decide)).trans (by decide)

/-- Claim C9 (counterexample): on the empty input string `chunk_text`
returns `[""]`, a list containing an empty chunk, for any `max_chars`
(here the default 1800). -/
theorem chunk_text_empty_input_empty_chunk :
    chunk_text ([] : Str) 1800 = [[]] := by decide

/-- Case-insensitive literal match of a lowercase pattern against the
head of the input; returns the remaining input on success. -/
def matchCaseless : Str → Str → Option Str
  | [], s => some s
  | _ :: _, [] => none
  | p :: ps, c :: cs => if c.toLower = p then matchCaseless ps cs else none

def prevIsWord : Option Char → Bool
  | some c => isWordChar c
  | none => false

/-- `re.sub` scanning engine: tries the matcher at every position, left to
right; on a match, emits the replacement and resumes after the matched
text (Python replacements are never rescanned, and lookbehinds see the
original text, here the last matched character).  The matcher returns
`(matchedText, replacement, rest)`.  Fuel = input length suffices because
every matcher used here consumes at least one character. -/
def reSub (m : Option Char → Str → Option (Str × Str × Str)) :
    Nat → Option Char → Str → Str
  | 0, _, s => s
  | _ + 1, _, [] => []
  | fuel + 1, prev, c :: cs =>
    match m prev (c :: cs) with
    | some (mt, repl, rest) => repl ++ reSub m fuel mt.getLast? rest
    | none => c :: reSub m fuel (some c) cs

def reSubTop (m : Option Char → Str → Option (Str × Str × Str)) (s : Str) : Str :=
  reSub m s.length none s

/-- First matcher success over an alternation, in pattern order. -/
def firstSome {α : Type} (f : Str → Option α) : List Str → Option α
  | [] => none
  | w :: ws =>
    match f w with
    | some x => some x
    | none => firstSome f ws

/-- Alternatives of `(hi|hello|hey|dear|mr|mrs|ms|dr)`, in pattern order. -/
def greetWords : List Str :=
  ["hi".toList, "hello".toList, "hey".toList, "dear".toList,
   "mr".toList, "mrs".toList, "ms".toList, "dr".toList]

/-- One alternative of
`re.sub(r'\b(hi|hello|hey|dear|mr|mrs|ms|dr)\s+([A-Z][a-z]+)', r'\1, \2', …, re.IGNORECASE)`
(`app.py` line 202): greeting word, one-or-more whitespace, then a letter
followed by at least one more letter (`[A-Z][a-z]+` is all-letters under
`IGNORECASE`). -/
def tryGreetWord (w s : Str) : Option (Str × Str × Str) :=
  match matchCaseless w s with
  | none => none
  | some r1 =>
    let sp := r1.takeWhile pySpace
    if sp.isEmpty then none
    else
      match r1.dropWhile pySpace with
      | [] => none
      | c :: r3 =>
        if isAsciiAlpha c then
          let tl := r3.takeWhile isAsciiAlpha
          if tl.isEmpty then none
          else
            let g1 := s.take w.length
            let g2 := c :: tl
            some (g1 ++ sp ++ g2, g1 ++ ',' :: ' ' :: g2, r3.drop tl.length)
        else none

def mGreet (prev : Option Char) (s : Str) : Option (Str × Str × Str) :=
  if prevIsWord prev then none
  else firstSome (fun w => tryGreetWord w s) greetWords

/-- Tail of `re.sub(r'(\w+)\s+(and|or)\s+(\w+)', r'\1, \2 \3', text)`
(`app.py` line 205) after the leading `(\w+)\s+`: the conjunction is
matched case-sensitively (this sub has no `IGNORECASE` flag). -/
def tryConjTail (g1 sp1 w r2 : Str) : Option (Str × Str × Str) :=
  if w.isPrefixOf r2 then
    let r3 := r2.drop w.length
    let sp2 := r3.takeWhile pySpace
    if sp2.isEmpty then none
    else
      let r4 := r3.drop sp2.length
      let g3 := r4.takeWhile isWordChar
      if g3.isEmpty then none
      else
        some (g1 ++ sp1 ++ w ++ sp2 ++ g3,
              g1 ++ ',' :: ' ' :: (w ++ ' ' :: g3),
              r4.drop g3.length)
  else none

def mConj (_prev : Option Char) (s : Str) : Option (Str × Str × Str) :=
  let g1 := s.takeWhile isWordChar
  if g1.isEmpty then none
  else
    let r1 := s.drop g1.length
    let sp1 := r1.takeWhile pySpace
    if sp1.isEmpty then none
    else
      let r2 := r1.drop sp1.length
      match tryConjTail g1 sp1 "and".toList r2 with
      | some x => some x
      | none => tryConjTail g1 sp1 "or".toList r2

/-- Alternatives of the introductory-word pattern of
`re.sub(r'^(well|so|now|then|actually|basically|essentially|however|meanwhile|furthermore|therefore|moreover)\s+', r'\1, ', …, re.IGNORECASE)`
(`app.py` line 208), in pattern order. -/
def introWords : List Str :=
  ["well".toList, "so".toList, "now".toList, "then".toList,
   "actually".toList, "basically".toList, "essentially".toList,
   "however".toList, "meanwhile".toList, "furthermore".toList,
   "therefore".toList, "moreover".toList]

def tryIntro (w s : Str) : Option (Str × Str) :=
  match matchCaseless w s with
  | none => none
  | some r =>
    if (r.takeWhile pySpace).isEmpty then none
    else some (s.take w.length, r.dropWhile pySpace)

/-- The `^`-anchored introductory-word sub: it can only fire at the very
start of the string (no `re.MULTILINE`). -/
def subIntro (s : Str) : Str :=
  match firstSome (fun w => tryIntro w s) introWords with
  | some (g1, rest) => g1 ++ ',' :: ' ' :: rest
  | none => s

/-- One alternative of
`re.sub(r'(?<!,)\s+(but|yet|so)\s+(?=\w{3,})', r', \1 ', text)`
(`app.py` line 211): case-sensitive, with a negative lookbehind for a
comma and a non-consuming lookahead for three word characters. -/
def tryBys (sp1 w r1 : Str) : Option (Str × Str × Str) :=
  if w.isPrefixOf r1 then
    let r2 := r1.drop w.length
    let sp2 := r2.takeWhile pySpace
    if sp2.isEmpty then none
    else
      let r3 := r2.drop sp2.length
      if 3 ≤ (r3.takeWhile isWordChar).length then
        some (sp1 ++ w ++ sp2, ',' :: ' ' :: (w ++ [' ']), r3)
      else none
  else none

def mBys (prev : Option Char) (s : Str) : Option (Str × Str × Str) :=
  if prev = some ',' then none
  else
    let sp1 := s.takeWhile pySpace
    if sp1.isEmpty then none
    else
      let r1 := s.drop sp1.length
      match tryBys sp1 "but".toList r1 with
      | some x => some x
      | none =>
        match tryBys sp1 "yet".toList r1 with
        | some x => some x
        | none => tryBys sp1 "so".toList r1

/-- `add_natural_commas(text)` (`app.py` lines 199-213): the four subs in
source order. -/
def add_natural_commas (text : Str) : Str :=
  reSubTop mBys (subIntro (reSubTop mConj (reSubTop mGreet text)))

/-- A whole caseless word at the head of the input with a word boundary
after it; returns `(matchedText, rest)`. -/
def tryWordTag (w s : Str) : Option (Str × Str) :=
  match matchCaseless w s with
  | none => none
  | some r =>
    match r with
    | [] => some (s.take w.length, [])
    | c :: _ => if isWordChar c then none else some (s.take w.length, r)

/-- Alternatives of the transition-word pattern of
`re.sub(r'\b(however|therefore|meanwhile|furthermore|moreover|consequently|additionally|finally)\b', r'\1 --', …, re.IGNORECASE)`
(`app.py` line 218). -/
def transitionWords : List Str :=
  ["however".toList, "therefore".toList, "meanwhile".toList,
   "furthermore".toList, "moreover".toList, "consequently".toList,
   "additionally".toList, "finally".toList]

/-- Alternatives of the emphasis-word pattern of
`re.sub(r'\b(important|note|remember|please|understand)\b', r'-- \1', …, re.IGNORECASE)`
(`app.py` line 221). -/
def emphasisWords : List Str :=
  ["important".toList, "note".toList, "remember".toList,
   "please".toList, "understand".toList]

def mTransition (prev : Option Char) (s : Str) : Option (Str × Str × Str) :=
  if prevIsWord prev then none
  else
    match firstSome (fun w => tryWordTag w s) transitionWords with
    | some (mt, rest) => some (mt, mt ++ [' ', '-', '-'], rest)
    | none => none

def mEmphasis (prev : Option Char) (s : Str) : Option (Str × Str × Str) :=
  if prevIsWord prev then none
  else
    match firstSome (fun w => tryWordTag w s) emphasisWords with
    | some (mt, rest) => some (mt, '-' :: '-' :: ' ' :: mt, rest)
    | none => none

/-- `add_strategic_pauses(text)` (`app.py` lines 215-223). -/
def add_strategic_pauses (text : Str) : Str :=
  reSubTop mEmphasis (reSubTop mTransition text)

/-- A caseless word at the head of the input with a word boundary after
it (Boolean form, for `re.search`). -/
def wordHere (w s : Str) : Bool :=
  match matchCaseless w s with
  | none => false
  | some r =>
    match r with
    | [] => true
    | c :: _ => !isWordChar c

/-- `re.search(r'\b(w1|…|wn)\b', s)` as a Boolean: some alternative
occurs as a whole word. -/
def cwAux (ws : List Str) : Option Char → Str → Bool
  | _, [] => false
  | prev, c :: cs =>
    (!prevIsWord prev && ws.any (fun w => wordHere w (c :: cs))) || cwAux ws (some c) cs

def containsWord (ws : List Str) (s : Str) : Bool := cwAux ws none s

/-- `re.search(r'[.!?]$', s)`: Python `$` also matches just before a
final newline. -/
def endsPunct (s : Str) : Bool :=
  match s.reverse with
  | [] => false
  | c :: rest =>
    if isSentEnd c then true
    else if c = '\n' then
      match rest with
      | [] => false
      | c2 :: _ => isSentEnd c2
    else false

def toLowerStr (s : Str) : Str := s.map Char.toLower

/-- Question-cue alternatives of `app.py` line 183. -/
def questionWords : List Str :=
  ["what".toList, "when".toList, "where".toList, "why".toList,
   "how".toList, "who".toList, "is".toList, "are".toList, "do".toList,
   "does".toList, "did".toList, "can".toList, "could".toList,
   "would".toList, "will".toList, "should".toList]

/-- Exclamation-cue alternatives of `app.py` line 185. -/
def exclaimWords : List Str :=
  ["wow".toList, "great".toList, "amazing".toList, "excellent".toList,
   "fantastic".toList, "oh".toList, "ah".toList, "yes".toList, "no".toList]

/-- Terminal-punctuation step of `format_speech_text` (`app.py` lines
181-188): append `?`, `!` or `.` depending on word cues in the lowercased
sentence. -/
def sentencePunct (s : Str) : Str :=
  if endsPunct s then s
  else if containsWord questionWords (toLowerStr s) then s ++ ['?']
  else if containsWord exclaimWords (toLowerStr s) then s ++ ['!']
  else s ++ ['.']

/-- `format_speech_text(text)` (`app.py` lines 163-197). -/
def format_speech_text (text : Str) : Str :=
  if (pyStrip text).isEmpty then text
  else
    add_strategic_pauses (joinSp ((splitSentences text).filterMap (fun sRaw =>
      if (pyStrip sRaw).isEmpty then none
      else some (sentencePunct (add_natural_commas (pyStrip sRaw))))))

/-- Engine for `re.sub(r'<Word>\s*(\d+)', r'<Word> \1', name, re.IGNORECASE)`
(`app.py` lines 157-158): caseless literal word, optional whitespace, one
or more digits; the replacement re-spells the word capitalized with one
space before the digits.  No word boundary in the pattern.  Fuel = input
length suffices (every step consumes at least one character). -/
def subWordNumF (w repl : Str) : Nat → Str → Str
  | 0, s => s
  | _ + 1, [] => []
  | fuel + 1, c :: cs =>
    match matchCaseless w (c :: cs) with
    | some rest =>
      let r2 := rest.dropWhile pySpace
      let ds := r2.takeWhile Char.isDigit
      if ds.isEmpty then c :: subWordNumF w repl fuel cs
      else repl ++ ' ' :: (ds ++ subWordNumF w repl fuel (r2.drop ds.length))
    | none => c :: subWordNumF w repl fuel cs

/-- `format_speaker_name(speaker_name)` (`app.py` lines 154-161). -/
def format_speaker_name (speaker_name : Str) : Str :=
  let s1 := subWordNumF "speaker".toList "Speaker".toList speaker_name.length speaker_name
  subWordNumF "user".toList "User".toList s1.length s1

/-- `re.match(r'^([^:]+):\s*(.+)$', p, re.DOTALL)` (`app.py` line 137):
group 1 is the non-empty run before the first colon, group 2 is the rest
after the colon with the greedy `\s*` removed; when everything after the
colon is whitespace, backtracking leaves exactly the final whitespace
character in group 2. -/
def speakerMatch (p : Str) : Option (Str × Str) :=
  let name := p.takeWhile (fun c => c ≠ ':')
  match p.drop name.length with
  | [] => none
  | _ :: rest =>
    if name.isEmpty then none
    else if rest.isEmpty then none
    else if (lstrip rest).isEmpty then some (name, [rest.getLastD ' '])
    else some (name, lstrip rest)

/-- `text.split('\n\n')`: split on each non-overlapping occurrence, left
to right. -/
def splitOnNN : Str → List Str
  | [] => [[]]
  | '\n' :: '\n' :: rest => [] :: splitOnNN rest
  | c :: rest =>
    match splitOnNN rest with
    | [] => [[c]]
    | h :: t => (c :: h) :: t

/-- `'\n\n'.join(...)`. -/
def joinNN : List Str → Str
  | [] => []
  | [p] => p
  | p :: ps => p ++ '\n' :: '\n' :: joinNN ps

/-- Per-paragraph body of `enhance_text_for_speech` (`app.py` lines
132-150): skip blank paragraphs; on a `label: body` match format the
(stripped) label and body separately, otherwise format the stripped
paragraph. -/
def enhancePara (p : Str) : Option Str :=
  if (pyStrip p).isEmpty then none
  else
    match speakerMatch (pyStrip p) with
    | some (name, body) =>
      some (format_speaker_name (pyStrip name) ++ ':' :: ' ' :: format_speech_text (pyStrip body))
    | none => some (format_speech_text (pyStrip p))

/-- `enhance_text_for_speech(text)` (`app.py` lines 126-152). -/
def enhance_text_for_speech (text : Str) : Str :=
  joinNN ((splitOnNN text).filterMap enhancePara)

/-- Python values produced by `json.loads`; numbers keep their source
lexeme. -/
inductive JValue where
  | null
  | bool (b : Bool)
  | num (lexeme : Str)
  | str (s : Str)
  | arr (elems : List JValue)
  | obj (members : List (Str × JValue))

/-- JSON inter-token whitespace (`' \t\n\r'`). -/
def jsonWs (c : Char) : Bool :=
  c = ' ' || c = '\t' || c = '\n' || c = '\r'

def skipWs (s : Str) : Str := s.dropWhile jsonWs

def hexVal (c : Char) : Option Nat :=
  if '0' ≤ c && c ≤ '9' then some (c.toNat - 48)
  else if 'a' ≤ c && c ≤ 'f' then some (c.toNat - 87)
  else if 'A' ≤ c && c ≤ 'F' then some (c.toNat - 55)
  else none

def escChar (c : Char) : Option Char :=
  if c = '"' then some '"'
  else if c = '\\' then some '\\'
  else if c = '/' then some '/'
  else if c = 'b' then some '\x08'
  else if c = 'f' then some '\x0c'
  else if c = 'n' then some '\n'
  else if c = 'r' then some '\r'
  else if c = 't' then some '\t'
  else none

/-- JSON string body after the opening quote (strict mode: raw control
characters are rejected).  Lone `\uXXXX` surrogates, which Lean `Char`
cannot hold, map to the replacement character; no claim exercises them. -/
def pStrAux : Nat → Str → Option (Str × Str)
  | 0, _ => none
  | _ + 1, [] => none
  | fuel + 1, c :: cs =>
    if c = '"' then some ([], cs)
    else if c = '\\' then
      match cs with
      | [] => none
      | e :: cs2 =>
        if e = 'u' then
          match cs2 with
          | h1 :: h2 :: h3 :: h4 :: cs3 =>
            match hexVal h1, hexVal h2, hexVal h3, hexVal h4 with
            | some a, some b, some c3, some d =>
              let n := ((a * 16 + b) * 16 + c3) * 16 + d
              let ch := if 0xd800 ≤ n && n < 0xe000 then '�' else Char.ofNat n
              (pStrAux fuel cs3).map (fun p => (ch :: p.1, p.2))
            | _, _, _, _ => none
          | _ => none
        else
          match escChar e with
          | some d => (pStrAux fuel cs2).map (fun p => (d :: p.1, p.2))
          | none => none
    else if c.toNat < 32 then none
    else (pStrAux fuel cs).map (fun p => (c :: p.1, p.2))

def digitsOf (s : Str) : Str := s.takeWhile Char.isDigit

/-- Optional JSON fraction part. -/
def pFrac : Str → Option (Str × Str)
  | '.' :: r =>
    let d := digitsOf r
    if d.isEmpty then none else some ('.' :: d, r.drop d.length)
  | s => some ([], s)

/-- Optional JSON exponent part. -/
def pExp : Str → Option (Str × Str)
  | [] => some ([], [])
  | e :: r =>
    if e = 'e' || e = 'E' then
      let sg : Str × Str :=
        match r with
        | '+' :: t => (['+'], t)
        | '-' :: t => (['-'], t)
        | _ => ([], r)
      let d := digitsOf sg.2
      if d.isEmpty then none else some (e :: (sg.1 ++ d), sg.2.drop d.length)
    else some ([], e :: r)

/-- JSON number: `-?(0|[1-9][0-9]*)(\.[0-9]+)?([eE][+-]?[0-9]+)?`. -/
def pNum (s : Str) : Option (Str × Str) :=
  let sp : Str × Str :=
    match s with
    | '-' :: r => (['-'], r)
    | _ => ([], s)
  let ip := digitsOf sp.2
  if ip.isEmpty then none
  else if 1 < ip.length && ip.headD '0' = '0' then none
  else
    match pFrac (sp.2.drop ip.length) with
    | none => none
    | some (fp, r2) =>
      match pExp r2 with
      | none => none
      | some (ep, r3) => some (sp.1 ++ ip ++ fp ++ ep, r3)

/-- Element loop of a JSON array, after the opening bracket (non-empty
case); the element parser `pv` is the value parser one nesting level
down.  Its own fuel bounds the element count. -/
def pElems (pv : Str → Option (JValue × Str)) :
    Nat → Str → List JValue → Option (JValue × Str)
  | 0, _, _ => none
  | fuel + 1, s, acc =>
    match pv (skipWs s) with
    | none => none
    | some (v, r) =>
      match skipWs r with
      | ',' :: r2 => pElems pv fuel r2 (v :: acc)
      | ']' :: r2 => some (.arr (v :: acc).reverse, r2)
      | _ => none

/-- Member loop of a JSON object, after the opening brace (non-empty
case).  Duplicate keys are kept in order; lookups take the last one,
matching Python dict construction. -/
def pMembers (pv : Str → Option (JValue × Str)) :
    Nat → Str → List (Str × JValue) → Option (JValue × Str)
  | 0, _, _ => none
  | fuel + 1, s, acc =>
    match skipWs s with
    | '"' :: r =>
      match pStrAux (r.length + 1) r with
      | none => none
      | some (k, r2) =>
        match skipWs r2 with
        | ':' :: r3 =>
          match pv (skipWs r3) with
          | none => none
          | some (v, r4) =>
            match skipWs r4 with
            | ',' :: r5 => pMembers pv fuel r5 ((k, v) :: acc)
            | '}' :: r5 => some (.obj ((k, v) :: acc).reverse, r5)
            | _ => none
        | _ => none
    | _ => none

/-- JSON value parser; the fuel bounds nesting depth (each level consumes
at least one character, so input length suffices).  Follows
`json.loads` defaults, including the `NaN`/`Infinity`/`-Infinity`
constants. -/
def pVal : Nat → Str → Option (JValue × Str)
  | 0, _ => none
  | fuel + 1, s =>
    match s with
    | [] => none
    | c :: cs =>
      if c = '{' then
        match skipWs cs with
        | '}' :: r => some (.obj [], r)
        | cs2 => pMembers (pVal fuel) (cs2.length + 1) cs2 []
      else if c = '[' then
        match skipWs cs with
        | ']' :: r => some (.arr [], r)
        | cs2 => pElems (pVal fuel) (cs2.length + 1) cs2 []
      else if c = '"' then
        (pStrAux (cs.length + 1) cs).map (fun p => (JValue.str p.1, p.2))
      else if "null".toList.isPrefixOf s then some (.null, s.drop 4)
      else if "true".toList.isPrefixOf s then some (.bool true, s.drop 4)
      else if "false".toList.isPrefixOf s then some (.bool false, s.drop 5)
      else if "NaN".toList.isPrefixOf s then some (.num "NaN".toList, s.drop 3)
      else if "Infinity".toList.isPrefixOf s then some (.num "Infinity".toList, s.drop 8)
      else if "-Infinity".toList.isPrefixOf s then some (.num "-Infinity".toList, s.drop 9)
      else (pNum s).map (fun p => (JValue.num p.1, p.2))

/-- `json.loads(s)`: `none` models `json.JSONDecodeError`. -/
def jsonParse (s : Str) : Option JValue :=
  match pVal (s.length + 1) (skipWs s) with
  | some (v, r) => if (skipWs r).isEmpty then some v else none
  | none => none

/-- The two uncaught exception kinds `format_transcript_to_text` can hit:
iterating a non-iterable (`TypeError`) and calling `.get` on a non-dict
(`AttributeError`). -/
inductive PyErr where
  | typeError
  | attributeError
deriving DecidableEq

/-- Outcome of a Python call: a returned string or an uncaught
exception. -/
inductive PyResult where
  | ok (s : Str)
  | raise (e : PyErr)
deriving DecidableEq

/-- Python truthiness of a JSON-derived value (`if speaker:`); a number
is falsy exactly when its mantissa has no nonzero digit. -/
def pyTruthy : JValue → Bool
  | .null => false
  | .bool b => b
  | .num lex =>
    (lex.takeWhile (fun c => c ≠ 'e' && c ≠ 'E')).any
      (fun c => (c.isDigit && c ≠ '0') || isAsciiAlpha c)
  | .str s => !s.isEmpty
  | .arr xs => !xs.isEmpty
  | .obj kvs => !kvs.isEmpty

def commaSpJoin : List Str → Str
  | [] => []
  | [x] => x
  | x :: xs => x ++ ',' :: ' ' :: commaSpJoin xs

/-- Python `repr` of a JSON-derived value, to bounded depth (`str` of a
container is its `repr`).  Number rendering keeps the source lexeme,
approximating Python float normalization; no claim exercises the
container or float cases. -/
def pyReprF : Nat → JValue → Str
  | 0, _ => []
  | fuel + 1, v =>
    match v with
    | .null => "None".toList
    | .bool true => "True".toList
    | .bool false => "False".toList
    | .num lex => lex
    | .str s => '\'' :: (s ++ ['\''])
    | .arr xs => '[' :: (commaSpJoin (xs.map (pyReprF fuel)) ++ [']'])
    | .obj kvs =>
      '{' :: (commaSpJoin (kvs.map
        (fun kv => '\'' :: (kv.1 ++ '\'' :: ':' :: ' ' :: pyReprF fuel kv.2))) ++ ['}'])

/-- Python `str()` as used by the f-string `f"{speaker}: {text}"`. -/
def pyStr (v : JValue) : Str :=
  match v with
  | .str s => s
  | _ => pyReprF 1000 v

/-- `item.get(key, default)` on a dict built by `json.loads` (duplicate
keys: the last occurrence wins). -/
def dictGet (kvs : List (Str × JValue)) (key : Str) (dflt : JValue) : JValue :=
  match kvs.reverse.find? (fun kv => kv.1 == key) with
  | some kv => kv.2
  | none => dflt

/-- `for item in transcripts`: arrays yield elements, strings yield their
characters, dicts yield their keys; anything else raises `TypeError`
(modelled as `none`). -/
def pyIterate : JValue → Option (List JValue)
  | .arr xs => some xs
  | .str s => some (s.map (fun c => JValue.str [c]))
  | .obj kvs => some (kvs.map (fun kv => JValue.str kv.1))
  | _ => none

/-- Loop body of `format_transcript_to_text` (`app.py` lines 108-116):
`none` models the `AttributeError` from `.get` on a non-dict item. -/
def itemLine : JValue → Option Str
  | .obj kvs =>
    let text := dictGet kvs "text".toList (.str [])
    let speaker := dictGet kvs "speaker".toList (.str [])
    some (if pyTruthy speaker
          then pyStr speaker ++ ':' :: ' ' :: (pyStr text ++ ['\n', '\n'])
          else pyStr text ++ ['\n', '\n'])
  | _ => none

def buildLines : List JValue → Option Str
  | [] => some []
  | it :: rest =>
    match itemLine it with
    | none => none
    | some line => (buildLines rest).map (fun r => line ++ r)

/-- `format_transcript_to_text(transcripts_str)` (`app.py` lines 103-124).
Only `json.JSONDecodeError` is caught (the plain-text fallback); inputs
that parse as JSON but are not a sequence of dicts raise. -/
def format_transcript_to_text (transcripts_str : Str) : PyResult :=
  match jsonParse transcripts_str with
  | none => .ok (enhance_text_for_speech (pyStrip transcripts_str))
  | some v =>
    match pyIterate v with
    | none => .raise .typeError
    | some items =>
      match buildLines items with
      | none => .raise .attributeError
      | some result => .ok (enhance_text_for_speech (pyStrip result))

/-- Claim C5 (counterexample): the input `"42"` parses as JSON (the
number 42), so the fallback is not taken, and iterating it raises an
uncaught `TypeError` — an exception escapes, contradicting the claim that
every non-dialogue input silently falls back to plain text. -/
theorem format_transcript_raises_on_number :
    format_transcript_to_text "42".toList = PyResult.raise PyErr.typeError := by decide

/-- Claim C5 (amended): the silent plain-text fallback happens exactly
when JSON parsing fails; the function then returns the enhanced trimmed
input and no exception escapes. -/
theorem format_transcript_fallback_on_parse_failure (s : Str)
    (h : jsonParse s = none) :
    format_transcript_to_text s = PyResult.ok (enhance_text_for_speech (pyStrip s)) := by
  unfold format_transcript_to_text
  rw [h]

/-- Witness for the amended C5 on a concrete non-JSON input. -/
theorem format_transcript_fallback_witness :
    format_transcript_to_text "plain text".toList
      = PyResult.ok (enhance_text_for_speech (pyStrip "plain text".toList)) :=
  format_transcript_fallback_on_parse_failure "plain text".toList rfl

/-- Claim C6 (counterexample): on the documented scenario input the
formatter does not capitalize the greeting; the output is not
`"Agent: Hello, how are you?"`. -/
theorem format_transcript_scenario_not_capitalized :
    format_transcript_to_text "[\x7b\"speaker\":\"Agent\",\"text\":\"hello how are you\"\x7d]".toList
      ≠ PyResult.ok "Agent: Hello, how are you?".toList := by decide

/-- Claim C6 (amended): the scenario input formats to
`"Agent: hello, how are you?"` — comma inserted after the greeting word,
question mark appended, original letter case preserved. -/
theorem format_transcript_scenario_exact :
    format_transcript_to_text "[\x7b\"speaker\":\"Agent\",\"text\":\"hello how are you\"\x7d]".toList
      = PyResult.ok "Agent: hello, how are you?".toList := by decide

/-- Claim C7 (counterexample): `"Remember this."` is well-punctuated,
comma-correct and contains no discourse marker, yet formatting is not
idempotent on it: each pass inserts a fresh `"-- "` before the emphasis
word `remember`. -/
theorem enhance_not_idempotent_on_pause_words :
    enhance_text_for_speech (enhance_text_for_speech "Remember this.".toList)
      ≠ enhance_text_for_speech "Remember this.".toList := by decide

theorem splitOnNN_ne_nil (x : Str) : splitOnNN x ≠ [] := by
  induction x using splitOnNN.induct with
  | case1 => simp [splitOnNN]
  | case2 rest ih => simp [splitOnNN]
  | case3 c rest hno hnil ih => simp [splitOnNN, hno, hnil]
  | case4 c rest hno w ws hcons ih => simp [splitOnNN, hno, hcons]

/-- `'\n\n'.join(text.split('\n\n')) == text`. -/
theorem joinNN_splitOnNN (x : Str) : joinNN (splitOnNN x) = x := by
  induction x using splitOnNN.induct with
  | case1 => rfl
  | case2 rest ih =>
    cases hsp : splitOnNN rest with
    | nil => exact absurd hsp (splitOnNN_ne_nil rest)
    | cons h0 t0 =>
      rw [hsp] at ih
      show joinNN ([] :: splitOnNN rest) = _
      rw [hsp]
      show ([] : Str) ++ '\n' :: '\n' :: joinNN (h0 :: t0) = _
      simp [ih]
  | case3 c rest hno hnil ih => exact absurd hnil (splitOnNN_ne_nil rest)
  | case4 c rest hno w ws hcons ih =>
    rw [hcons] at ih
    have hsp : splitOnNN (c :: rest) = (c :: w) :: ws := by
      simp [splitOnNN, hno, hcons]
    rw [hsp]
    cases ws with
    | nil =>
      show c :: w = c :: rest
      have hj : joinNN [w] = w := rfl
      rw [hj] at ih
      rw [ih]
    | cons w1 ws1 =>
      show (c :: w) ++ '\n' :: '\n' :: joinNN (w1 :: ws1) = c :: rest
      have ih2 : w ++ '\n' :: '\n' :: joinNN (w1 :: ws1) = rest := ih
      simp [← ih2]

theorem filterMap_id_of_mem {α : Type} (f : α → Option α) (l : List α)
    (h : ∀ a ∈ l, f a = some a) : l.filterMap f = l := by
  induction l with
  | nil => rfl
  | cons a l ih =>
    rw [List.filterMap_cons_some (h a (List.mem_cons_self a l)),
        ih (fun b hb => h b (List.mem_cons_of_mem a hb))]

/-- A sentence on which the comma pass is a no-op (comma-correct), which
already ends in terminal punctuation (well-punctuated), and which is
already stripped and non-empty. -/
def sentenceFixed (s : Str) : Bool :=
  (pyStrip s == s) && !s.isEmpty && (add_natural_commas s == s) && endsPunct s

/-- A speech body the per-sentence passes leave unchanged: every sentence
fixed, sentences already single-space separated, and no transition or
emphasis pause-word (the pause pass is a no-op). -/
def speechFixed (t : Str) : Bool :=
  (splitSentences t).all sentenceFixed &&
  (joinSp (splitSentences t) == t) &&
  (add_strategic_pauses t == t)

/-- A paragraph the formatter leaves unchanged: non-blank, stripped, and
either plain fixed speech or a `label: body` with normalized label,
exactly one space after the colon, and fixed body. -/
def paragraphFixed (p : Str) : Bool :=
  (pyStrip p == p) && !(pyStrip p).isEmpty &&
  (match speakerMatch p with
   | some nb =>
     (pyStrip nb.1 == nb.1) && (format_speaker_name nb.1 == nb.1) &&
     (pyStrip nb.2 == nb.2) && speechFixed nb.2 &&
     (p == nb.1 ++ ':' :: ' ' :: nb.2)
   | none => speechFixed p)

/-- Already-well-punctuated, comma-correct text with no discourse markers
and no pause-trigger words, in normalized layout: the class of fixed
points of the formatter. -/
def wellFormatted (x : Str) : Bool :=
  (splitOnNN x).all paragraphFixed

theorem format_speech_text_fixed (t : Str) (h : speechFixed t = true) :
    format_speech_text t = t := by
  unfold speechFixed at h
  simp only [Bool.and_eq_true, List.all_eq_true, beq_iff_eq] at h
  obtain ⟨⟨hall, hjoin⟩, hpause⟩ := h
  unfold format_speech_text
  by_cases he : (pyStrip t).isEmpty
  · simp [he]
  · rw [if_neg (by simpa using he)]
    rw [filterMap_id_of_mem _ _ ?_, hjoin, hpause]
    intro s hs
    have hf := hall s hs
    unfold sentenceFixed at hf
    simp only [Bool.and_eq_true, beq_iff_eq, Bool.not_eq_true'] at hf
    obtain ⟨⟨⟨hstrip, hne⟩, hcomma⟩, hpunct⟩ := hf
    simp [hstrip, hne, hcomma, sentencePunct, hpunct]

/-- `enhance_text_for_speech` is the identity on `wellFormatted` text. -/
theorem enhance_fixed (x : Str) (h : wellFormatted x = true) :
    enhance_text_for_speech x = x := by
  unfold wellFormatted at h
  rw [List.all_eq_true] at h
  unfold enhance_text_for_speech
  rw [filterMap_id_of_mem _ _ ?_, joinNN_splitOnNN]
  intro p hp
  have hf := h p hp
  unfold paragraphFixed at hf
  cases hmatch : speakerMatch p with
  | none =>
    rw [hmatch] at hf
    simp only [Bool.and_eq_true, beq_iff_eq, Bool.not_eq_true'] at hf
    obtain ⟨⟨hstrip, hne⟩, hsf⟩ := hf
    rw [hstrip] at hne
    have hne2 : p ≠ [] := by
      intro hcon
      rw [hcon] at hne
      exact absurd hne (by decide)
    unfold enhancePara
    simp [hstrip, hne, hne2, hmatch, format_speech_text_fixed p hsf]
  | some nb =>
    obtain ⟨name, body⟩ := nb
    rw [hmatch] at hf
    simp only [Bool.and_eq_true, beq_iff_eq, Bool.not_eq_true'] at hf
    obtain ⟨⟨hstrip, hne⟩, ⟨⟨⟨⟨hn1, hn2⟩, hb1⟩, hsf⟩, hp2⟩⟩ := hf
    rw [hstrip] at hne
    have hsf2 : format_speech_text body = body := format_speech_text_fixed body hsf
    unfold enhancePara
    rw [hstrip]
    simp only [hne, Bool.false_eq_true, if_false, hmatch, hn1, hn2, hb1, hsf2]
    rw [hp2]

/-- Claim C7 (amended): the formatter is idempotent on
already-well-punctuated, comma-correct, normalized text with no
discourse markers and no pause-trigger transition/emphasis words
(`wellFormatted`): such text is a fixed point, so formatting twice equals
formatting once.  (Text containing a pause word such as `remember` gains
a fresh `--` on every pass, so the extra exclusion is necessary.) -/
theorem enhance_idempotent_on_formatted (x : Str) (h : wellFormatted x = true) :
    enhance_text_for_speech (enhance_text_for_speech x) = enhance_text_for_speech x := by
  rw [enhance_fixed x h]
  exact enhance_fixed x h

/-- Witness for the amended C7 on a concrete two-speaker dialogue. -/
theorem enhance_idempotent_witness :
    wellFormatted "A: x, and y.\n\nB: fine thanks.".toList = true ∧
    enhance_text_for_speech (enhance_text_for_speech "A: x, and y.\n\nB: fine thanks.".toList)
      = enhance_text_for_speech "A: x, and y.\n\nB: fine thanks.".toList :=
  ⟨by decide, enhance_idempotent_on_formatted _ (by decide)⟩

/-- Claim C8 (counterexample): the conjunction comma rules are
case-sensitive, not case-insensitive: lowercase `and`/`but` get a comma,
while `And`/`But` in the same context are left unchanged. -/
theorem add_natural_commas_case_counterexample :
    add_natural_commas "x and y".toList = "x, and y".toList ∧
    add_natural_commas "x And y".toList = "x And y".toList ∧
    add_natural_commas "a but there".toList = "a, but there".toList ∧
    add_natural_commas "a But there".toList = "a But there".toList := by decide

/-- Claim C8 (amended): the greeting rule and the introductory-word rule
match case-insensitively, but the `and`/`or` rule and the `but`/`yet`/`so`
rule are case-sensitive and fire only on lowercase conjunctions. -/
theorem add_natural_commas_case_profile :
    add_natural_commas "HELLO World".toList = "HELLO, World".toList ∧
    add_natural_commas "WELL sure".toList = "WELL, sure".toList ∧
    add_natural_commas "x and y".toList = "x, and y".toList ∧
    add_natural_commas "x or y".toList = "x, or y".toList ∧
    add_natural_commas "x And y".toList = "x And y".toList ∧
    add_natural_commas "x OR y".toList = "x OR y".toList ∧
    add_natural_commas "a yet there".toList = "a, yet there".toList ∧
    add_natural_commas "a YET there".toList = "a YET there".toList := by decide

/-- State of the per-chunk synthesis loop of `main` when it stops:
collected audio segments, the chunk texts actually sent (the call trace,
in order), and the index of the failing chunk if any. -/
structure SynthOutcome where
  segments : List (List Nat)
  calls : List Str
  failedAt : Option Nat
deriving DecidableEq

/-- Synthesis loop of `main` (`app.py` lines 296-320): one request per
chunk, strictly in order; on success the segment is appended, on the
first failure the loop reports the failing index (`st.error` names chunk
`i+1`) and `break`s.  `synth i c` is the outcome of the `i`-th request
with chunk text `c`. -/
def synthLoop (synth : Nat → Str → Option (List Nat)) : Nat → List Str → SynthOutcome
  | _, [] => ⟨[], [], none⟩
  | i, c :: cs =>
    match synth i c with
    | some seg =>
      let r := synthLoop synth (i + 1) cs
      ⟨seg :: r.segments, c :: r.calls, r.failedAt⟩
    | none => ⟨[], [c], some i⟩

/-- Merge-and-return tail of `main` (`app.py` lines 322-340): audio is
merged and returned only when `len(audio_chunks) == len(text_chunks)`;
otherwise the collected segments are discarded and no audio is
produced. -/
def convert (synth : Nat → Str → Option (List Nat)) (chunks : List Str) : Option (List Nat) :=
  let r := synthLoop synth 0 chunks
  if r.segments.length = chunks.length then some (merge_audio_chunks r.segments) else none

theorem synthLoop_fail (synth : Nat → Str → Option (List Nat)) :
    ∀ (cs : List Str) (i k : Nat), k < cs.length →
    (∀ j, j < k → (synth (i + j) (cs.getD j [])).isSome) →
    synth (i + k) (cs.getD k []) = none →
    (synthLoop synth i cs).calls = cs.take (k + 1) ∧
    (synthLoop synth i cs).failedAt = some (i + k) ∧
    (synthLoop synth i cs).segments.length = k := by
  intro cs
  induction cs with
  | nil => intro i k hk _ _; exact absurd hk (by simp)
  | cons c cs ih =>
    intro i k hk hsucc hfail
    cases k with
    | zero =>
      rw [List.getD_cons_zero, Nat.add_zero] at hfail
      simp [synthLoop, hfail]
    | succ k =>
      have h0 : (synth i c).isSome := by
        have := hsucc 0 (Nat.succ_pos k)
        rwa [List.getD_cons_zero, Nat.add_zero] at this
      obtain ⟨seg, hseg⟩ := Option.isSome_iff_exists.mp h0
      have ihr := ih (i + 1) k (Nat.lt_of_succ_lt_succ hk)
        (fun j hj => by
          have hjj := hsucc (j + 1) (Nat.succ_lt_succ hj)
          rwa [List.getD_cons_succ, show i + (j + 1) = i + 1 + j by omega] at hjj)
        (by rwa [List.getD_cons_succ, show i + (k + 1) = i + 1 + k by omega] at hfail)
      refine ⟨?_, ?_, ?_⟩
      · show (synthLoop synth i (c :: cs)).calls = c :: cs.take (k + 1)
        simp only [synthLoop, hseg]
        rw [ihr.1]
      · simp only [synthLoop, hseg]
        rw [ihr.2.1]
        congr 1
        omega
      · simp only [synthLoop, hseg, List.length_cons]
        rw [ihr.2.2]

theorem synthLoop_success (synth : Nat → Str → Option (List Nat)) :
    ∀ (cs : List Str) (i : Nat),
    (∀ j, j < cs.length → (synth (i + j) (cs.getD j [])).isSome) →
    (synthLoop synth i cs).calls = cs ∧
    (synthLoop synth i cs).failedAt = none ∧
    (synthLoop synth i cs).segments.length = cs.length := by
  intro cs
  induction cs with
  | nil => intro i _; exact ⟨rfl, rfl, rfl⟩
  | cons c cs ih =>
    intro i hsucc
    have h0 : (synth i c).isSome := by
      have := hsucc 0 (Nat.succ_pos cs.length)
      rwa [List.getD_cons_zero, Nat.add_zero] at this
    obtain ⟨seg, hseg⟩ := Option.isSome_iff_exists.mp h0
    have ihr := ih (i + 1)
      (fun j hj => by
        have hjj := hsucc (j + 1) (Nat.succ_lt_succ hj)
        rwa [List.getD_cons_succ, show i + (j + 1) = i + 1 + j by omega] at hjj)
    refine ⟨?_, ?_, ?_⟩
    · simp only [synthLoop, hseg]
      rw [ihr.1]
    · simp only [synthLoop, hseg]
      rw [ihr.2.1]
    · simp only [synthLoop, hseg, List.length_cons]
      rw [ihr.2.2]

/-- Claim C3: the loop calls `synthesize` exactly once per chunk,
strictly in chunk order.  If the first failure is at chunk `k`, the call
trace is exactly the first `k + 1` chunks (no call after `k`), the
failure identifies index `k`, and no audio is returned (the collected
segments are discarded, never merged).  When every chunk succeeds, every
chunk is called once in order and the merged audio of the collected
segments is returned. -/
theorem convert_fail_fast (synth : Nat → Str → Option (List Nat)) (chunks : List Str) :
    (∀ k, k < chunks.length →
      (∀ j, j < k → (synth j (chunks.getD j [])).isSome) →
      synth k (chunks.getD k []) = none →
      (synthLoop synth 0 chunks).calls = chunks.take (k + 1) ∧
      (synthLoop synth 0 chunks).failedAt = some k ∧
      convert synth chunks = none) ∧
    ((∀ j, j < chunks.length → (synth j (chunks.getD j [])).isSome) →
      (synthLoop synth 0 chunks).calls = chunks ∧
      convert synth chunks = some (merge_audio_chunks (synthLoop synth 0 chunks).segments)) := by
  constructor
  · intro k hk hsucc hfail
    have h := synthLoop_fail synth chunks 0 k hk
      (fun j hj => by simpa using hsucc j hj) (by simpa using hfail)
    refine ⟨h.1, by simpa using h.2.1, ?_⟩
    simp only [convert]
    rw [h.2.2, if_neg (by omega)]
  · intro hsucc
    have h := synthLoop_success synth chunks 0 (fun j hj => by simpa using hsucc j hj)
    refine ⟨h.1, ?_⟩
    simp only [convert]
    rw [if_pos h.2.2]

/-- A concrete synthesis oracle that fails on the second request. -/
def synthDemo (i : Nat) (_c : Str) : Option (List Nat) :=
  if i = 1 then none else some [i]

def chunksDemo : List Str := ["one.".toList, "two.".toList, "three.".toList]

/-- Witness for C3: with three chunks and a failure on chunk index 1,
exactly chunks 0 and 1 are sent, the failure names index 1, and no audio
is returned. -/
theorem convert_fail_fast_witness :
    (synthLoop synthDemo 0 chunksDemo).calls = chunksDemo.take 2 ∧
    (synthLoop synthDemo 0 chunksDemo).failedAt = some 1 ∧
    convert synthDemo chunksDemo = none :=
  (convert_fail_fast synthDemo chunksDemo).1 1 (by decide) (by decide) (by decide)

/-- Claim C10: `format_transcript_to_text`, `chunk_text` and
`merge_audio_chunks` are embedded as pure, state-free functions; two runs
on equal inputs return equal outputs. -/
theorem core_pipeline_deterministic
    (s1 s2 t1 t2 : Str) (m1 m2 : Nat) (b1 b2 : List (List Nat))
    (hs : s1 = s2) (ht : t1 = t2) (hm : m1 = m2) (hb : b1 = b2) :
    format_transcript_to_text s1 = format_transcript_to_text s2 ∧
    chunk_text t1 m1 = chunk_text t2 m2 ∧
    merge_audio_chunks b1 = merge_audio_chunks b2 := by
  subst hs
  subst ht
  subst hm
  subst hb
  exact ⟨rfl, rfl, rfl⟩

/-- Witness for C10 at concrete inputs. -/
theorem core_pipeline_deterministic_witness :
    format_transcript_to_text "x".toList = format_transcript_to_text "x".toList ∧
    chunk_text "x".toList 5 = chunk_text "x".toList 5 ∧
    merge_audio_chunks [[1]] = merge_audio_chunks [[1]] :=
  core_pipeline_deterministic _ _ _ _ _ _ _ _ rfl rfl rfl rfl

theorem tokensAux_dropWhile (s : Str) :
    tokensAux (s.dropWhile pySpace) [] = tokensAux s [] := by
  induction s with
  | nil => rfl
  | cons c cs ih =>
    by_cases h : pySpace c
    · rw [List.dropWhile_cons_of_pos h]
      rw [ih]
      simp [tokensAux, h]
    · rw [List.dropWhile_cons_of_neg h]

theorem tokensAux_append_space (a : Str) : ∀ (acc b : Str),
    tokensAux (a ++ ' ' :: b) acc = tokensAux a acc ++ tokensAux b [] := by
  have hsp : pySpace ' ' = true := by decide
  induction a with
  | nil =>
    intro acc b
    show tokensAux (' ' :: b) acc = tokensAux [] acc ++ tokensAux b []
    by_cases h : acc.isEmpty
    · simp [tokensAux, hsp, h]
    · simp [tokensAux, hsp, h]
  | cons c cs ih =>
    intro acc b
    show tokensAux (c :: (cs ++ ' ' :: b)) acc = tokensAux (c :: cs) acc ++ tokensAux b []
    by_cases hc : pySpace c
    · by_cases h : acc.isEmpty
      · simp [tokensAux, hc, h, ih]
      · simp [tokensAux, hc, h, ih]
    · simp [tokensAux, hc, ih]

theorem tokensAux_all_space : ∀ (t acc : Str), t.all pySpace = true →
    tokensAux t acc = tokensAux [] acc := by
  intro t
  induction t with
  | nil => intro acc _; rfl
  | cons c cs ih =>
    intro acc h
    simp only [List.all_cons, Bool.and_eq_true] at h
    by_cases ha : acc.isEmpty
    · simp [tokensAux, h.1, ha, ih [] h.2]
    · simp [tokensAux, h.1, ha, ih [] h.2]

theorem tokensAux_append_space_suffix : ∀ (s t acc : Str), t.all pySpace = true →
    tokensAux (s ++ t) acc = tokensAux s acc := by
  intro s
  induction s with
  | nil =>
    intro t acc h
    simpa using tokensAux_all_space t acc h
  | cons c cs ih =>
    intro t acc h
    by_cases hc : pySpace c
    · by_cases ha : acc.isEmpty
      · simp [tokensAux, hc, ha, ih t [] h]
      · simp [tokensAux, hc, ha, ih t [] h]
    · simp [tokensAux, hc, ih t _ h]

theorem all_reverse_bool {p : Char → Bool} (l : Str) :
    l.reverse.all p = l.all p := by
  simp

theorem takeWhile_all {p : Char → Bool} (l : Str) :
    (l.takeWhile p).all p = true := by
  induction l with
  | nil => rfl
  | cons c cs ih =>
    by_cases h : p c
    · simp [List.takeWhile_cons_of_pos h, h, ih]
    · simp [List.takeWhile_cons_of_neg h]

theorem rstrip_decomp (u : Str) :
    rstrip u ++ (u.reverse.takeWhile pySpace).reverse = u := by
  unfold rstrip
  rw [← List.reverse_append, List.takeWhile_append_dropWhile, List.reverse_reverse]

theorem pySplitWs_strip (s : Str) : pySplitWs (pyStrip s) = pySplitWs s := by
  unfold pySplitWs pyStrip
  have h1 : tokensAux (rstrip (lstrip s)) [] = tokensAux (lstrip s) [] := by
    conv_rhs => rw [← rstrip_decomp (lstrip s)]
    rw [tokensAux_append_space_suffix _ _ _ (by rw [all_reverse_bool]; exact takeWhile_all _)]
  rw [h1]
  exact tokensAux_dropWhile s

theorem tokensAux_word : ∀ (w acc : Str), w.all (fun c => !pySpace c) = true →
    tokensAux w acc = if (acc.reverse ++ w).isEmpty then [] else [acc.reverse ++ w] := by
  intro w
  induction w with
  | nil =>
    intro acc _
    show (if acc.isEmpty then [] else [acc.reverse]) = _
    cases acc with
    | nil => rfl
    | cons a as => simp [tokensAux]
  | cons c cs ih =>
    intro acc h
    simp only [List.all_cons, Bool.and_eq_true, Bool.not_eq_true'] at h
    have hstep : tokensAux (c :: cs) acc = tokensAux cs (c :: acc) := by
      simp [tokensAux, h.1]
    rw [hstep, ih (c :: acc) (by simp [List.all_eq_true] at h ⊢; intro x hx; exact h.2 x hx)]
    simp [h.1]

theorem pySplitWs_word (w : Str) (hne : w ≠ []) (hw : w.all (fun c => !pySpace c) = true) :
    pySplitWs w = [w] := by
  unfold pySplitWs
  rw [tokensAux_word w [] hw]
  cases w with
  | nil => exact absurd rfl hne
  | cons c cs => simp

theorem tokensAux_mem : ∀ (s acc : Str), acc.all (fun c => !pySpace c) = true →
    ∀ w ∈ tokensAux s acc, w ≠ [] ∧ w.all (fun c => !pySpace c) = true := by
  intro s
  induction s with
  | nil =>
    intro acc hacc w hw
    by_cases ha : acc.isEmpty
    · simp [tokensAux, ha] at hw
    · simp [tokensAux, ha] at hw
      subst hw
      constructor
      · intro hcon
        rw [List.reverse_eq_nil_iff] at hcon
        rw [hcon] at ha
        exact ha rfl
      · rw [all_reverse_bool]; exact hacc
  | cons c cs ih =>
    intro acc hacc w hw
    by_cases hc : pySpace c
    · by_cases ha : acc.isEmpty
      · simp only [tokensAux, hc, if_pos rfl, ha] at hw
        exact ih [] rfl w (by simpa using hw)
      · simp only [tokensAux, hc, if_pos rfl, ha] at hw
        rcases (by simpa using hw : w = acc.reverse ∨ w ∈ tokensAux cs []) with h1 | h1
        · subst h1
          constructor
          · intro hcon
            rw [List.reverse_eq_nil_iff] at hcon
            rw [hcon] at ha
            exact ha rfl
          · rw [all_reverse_bool]; exact hacc
        · exact ih [] rfl w h1
    · simp only [tokensAux, hc] at hw
      exact ih (c :: acc) (by simp [hc, hacc]) w (by simpa using hw)

theorem pySplitWs_mem (s : Str) : ∀ w ∈ pySplitWs s, w ≠ [] ∧ w.all (fun c => !pySpace c) = true :=
  tokensAux_mem s [] rfl

theorem pySplitWs_joinSp : ∀ l : List Str,
    pySplitWs (joinSp l) = (l.map pySplitWs).flatten := by
  intro l
  induction l with
  | nil => rfl
  | cons c t ih =>
    cases t with
    | nil => simp [joinSp]
    | cons d t2 =>
      show pySplitWs (c ++ ' ' :: joinSp (d :: t2)) = _
      unfold pySplitWs
      rw [tokensAux_append_space]
      show tokensAux c [] ++ pySplitWs (joinSp (d :: t2)) = _
      rw [ih]
      simp only [List.map_cons, List.flatten_cons]
      rfl

theorem length_dropWhile_le_self (p : Char → Bool) (l : Str) :
    (l.dropWhile p).length ≤ l.length := by
  induction l with
  | nil => simp
  | cons c cs ih =>
    by_cases h : p c
    · rw [List.dropWhile_cons_of_pos h]
      exact le_trans ih (Nat.le_succ _)
    · rw [List.dropWhile_cons_of_neg h]

theorem tokensAux_space_cons (c : Char) (hc : pySpace c = true) (cs acc : Str) :
    tokensAux (c :: cs) acc = tokensAux [] acc ++ tokensAux cs [] := by
  by_cases ha : acc.isEmpty
  · simp [tokensAux, hc, ha]
  · simp [tokensAux, hc, ha]

theorem tokensAux_nonspace_cons (c : Char) (hc : pySpace c = false) (cs acc : Str) :
    tokensAux (c :: cs) acc = tokensAux cs (c :: acc) := by
  simp [tokensAux, hc]

theorem ssAux_tokens : ∀ (fuel : Nat) (s : Str) (prev : Char) (acc : Str), s.length ≤ fuel →
    tokensAux (ssAux fuel s prev).1 acc ++ ((ssAux fuel s prev).2.map pySplitWs).flatten
      = tokensAux s acc := by
  intro fuel
  induction fuel with
  | zero =>
    intro s prev acc h
    have hs : s = [] := List.length_eq_zero.mp (Nat.le_zero.mp h)
    subst hs
    simp [ssAux]
  | succ fuel ih =>
    intro s prev acc h
    cases s with
    | nil => simp [ssAux]
    | cons c cs =>
      by_cases hcut : (pySpace c && isSentEnd prev) = true
      · have hc : pySpace c = true := by
          simp only [Bool.and_eq_true] at hcut
          exact hcut.1
        simp only [ssAux, hcut, if_true, List.map_cons, List.flatten_cons, pySplitWs]
        have hr : ((c :: cs).dropWhile pySpace).length ≤ fuel := by
          rw [List.dropWhile_cons_of_pos hc]
          exact le_trans (length_dropWhile_le_self pySpace cs) (by simpa using h)
        have hmain := ih ((c :: cs).dropWhile pySpace) ' ' [] hr
        simp only [pySplitWs] at hmain
        rw [hmain]
        rw [List.dropWhile_cons_of_pos hc, tokensAux_dropWhile cs]
        rw [tokensAux_space_cons c hc cs acc]
      · simp only [ssAux, hcut, if_false, Bool.false_eq_true]
        have hlen : cs.length ≤ fuel := by simpa using h
        by_cases hc : pySpace c = true
        · rw [tokensAux_space_cons c hc _ acc, tokensAux_space_cons c hc cs acc]
          rw [List.append_assoc]
          rw [ih cs c [] hlen]
        · rw [tokensAux_nonspace_cons c (by simpa using hc) _ acc,
              tokensAux_nonspace_cons c (by simpa using hc) cs acc]
          rw [ih cs c (c :: acc) hlen]

theorem splitSentences_tokens (s : Str) :
    ((splitSentences s).map pySplitWs).flatten = pySplitWs s := by
  unfold splitSentences
  simp only [List.map_cons, List.flatten_cons]
  exact ssAux_tokens s.length s ' ' [] le_rfl

theorem chunkWords_tokens (maxc : Nat) : ∀ (ws : List Str) (cur : Str),
    (∀ w ∈ ws, w ≠ [] ∧ w.all (fun c => !pySpace c) = true ∧ w.length ≤ maxc) →
    ((chunkWords maxc ws cur).1.map pySplitWs).flatten ++ pySplitWs (chunkWords maxc ws cur).2
      = pySplitWs cur ++ ws := by
  intro ws
  induction ws with
  | nil =>
    intro cur _
    simp [chunkWords]
  | cons w ws ih =>
    intro cur h
    obtain ⟨hw1, hw2, hw3⟩ := h w (List.mem_cons_self w ws)
    have hrest := fun w' hw' => h w' (List.mem_cons_of_mem w hw')
    have hwt : pySplitWs w = [w] := pySplitWs_word w hw1 hw2
    by_cases hfit : cur.length + w.length + 1 > maxc
    · by_cases hemp : cur.isEmpty = true
      · have hcur : cur = [] := by
          cases cur with
          | nil => rfl
          | cons a as => simp at hemp
        subst hcur
        have htake : w.take maxc = w := List.take_of_length_le hw3
        simp only [chunkWords, if_pos hfit, hemp, if_true, List.map_cons, List.flatten_cons]
        rw [htake, List.append_assoc, ih [] hrest, hwt]
        rfl
      · have hemp2 : cur.isEmpty = false := by simpa using hemp
        simp only [chunkWords, if_pos hfit, hemp2, Bool.false_eq_true, if_false,
          List.map_cons, List.flatten_cons]
        rw [List.append_assoc, ih w hrest, hwt, pySplitWs_strip]
        rfl
    · simp only [chunkWords, if_neg hfit]
      rw [ih _ hrest]
      by_cases hemp : cur.isEmpty = true
      · have hcur : cur = [] := by
          cases cur with
          | nil => rfl
          | cons a as => simp at hemp
        subst hcur
        show pySplitWs w ++ ws = pySplitWs [] ++ (w :: ws)
        rw [hwt]
        rfl
      · have hemp2 : cur.isEmpty = false := by simpa using hemp
        simp only [hemp2, Bool.false_eq_true, if_false]
        show pySplitWs (cur ++ ' ' :: w) ++ ws = _
        unfold pySplitWs
        rw [tokensAux_append_space]
        show (pySplitWs cur ++ pySplitWs w) ++ ws = _
        rw [hwt, List.append_assoc]
        rfl

theorem chunkSentences_tokens (maxc : Nat) : ∀ (ss : List Str) (cur : Str),
    (∀ s ∈ ss, ∀ w ∈ pySplitWs s, w.length ≤ maxc) →
    ((chunkSentences maxc ss cur).1.map pySplitWs).flatten
        ++ pySplitWs (chunkSentences maxc ss cur).2
      = pySplitWs cur ++ (ss.map pySplitWs).flatten := by
  intro ss
  induction ss with
  | nil =>
    intro cur _
    simp [chunkSentences]
  | cons s ss ih =>
    intro cur h
    have hs := h s (List.mem_cons_self s ss)
    have hrest := fun s' hs' => h s' (List.mem_cons_of_mem s hs')
    by_cases hfit : cur.length + s.length + 1 > maxc
    · by_cases hemp : cur.isEmpty = true
      · have hcur : cur = [] := by
          cases cur with
          | nil => rfl
          | cons a as => simp at hemp
        subst hcur
        have hwords : ∀ w ∈ pySplitWs s,
            w ≠ [] ∧ w.all (fun c => !pySpace c) = true ∧ w.length ≤ maxc := fun w hw =>
          ⟨(pySplitWs_mem s w hw).1, (pySplitWs_mem s w hw).2, hs w hw⟩
        have hw := chunkWords_tokens maxc (pySplitWs s) [] hwords
        have hsrest := ih (chunkWords maxc (pySplitWs s) []).2 hrest
        simp only [chunkSentences, if_pos hfit, hemp, if_true, List.map_cons,
          List.flatten_cons, List.map_append, List.flatten_append]
        rw [List.append_assoc, hsrest, ← List.append_assoc, hw]
        rfl
      · have hemp2 : cur.isEmpty = false := by simpa using hemp
        simp only [chunkSentences, if_pos hfit, hemp2, Bool.false_eq_true, if_false,
          List.map_cons, List.flatten_cons]
        rw [List.append_assoc, ih s hrest, pySplitWs_strip]
    · simp only [chunkSentences, if_neg hfit]
      rw [ih _ hrest]
      by_cases hemp : cur.isEmpty = true
      · have hcur : cur = [] := by
          cases cur with
          | nil => rfl
          | cons a as => simp at hemp
        subst hcur
        show pySplitWs s ++ _ = pySplitWs [] ++ _
        rfl
      · have hemp2 : cur.isEmpty = false := by simpa using hemp
        simp only [hemp2, Bool.false_eq_true, if_false]
        show pySplitWs (cur ++ ' ' :: s) ++ _ = _
        unfold pySplitWs
        rw [tokensAux_append_space]
        show (pySplitWs cur ++ pySplitWs s) ++ _ = _
        rw [List.append_assoc]
        rfl

/-- Claim C4 (amended): whenever no whitespace-delimited word of the
input is longer than `maxChars`, concatenating the chunks returned by
`chunk_text` with single spaces preserves the input's word sequence, in
order (the word-level fallback collapses whitespace runs inside
oversized sentences, so the exact sentence sequence is preserved only up
to whitespace normalization). -/
theorem chunk_text_preserves_words (text : Str) (maxc : Nat)
    (h : ∀ w ∈ pySplitWs text, w.length ≤ maxc) :
    pySplitWs (joinSp (chunk_text text maxc)) = pySplitWs text := by
  have hnil : pySplitWs ([] : Str) = [] := rfl
  unfold chunk_text
  by_cases hlen : text.length ≤ maxc
  · rw [if_pos hlen]
    rfl
  · rw [if_neg hlen]
    have hs : ∀ s ∈ splitSentences text, ∀ w ∈ pySplitWs s, w.length ≤ maxc := by
      intro s hsm w hw
      apply h
      rw [← splitSentences_tokens text]
      exact List.mem_flatten.mpr ⟨pySplitWs s, List.mem_map_of_mem pySplitWs hsm, hw⟩
    have hmain := chunkSentences_tokens maxc (splitSentences text) [] hs
    rw [hnil, List.nil_append, splitSentences_tokens] at hmain
    show pySplitWs (joinSp
      (if (chunkSentences maxc (splitSentences text) []).2.isEmpty
       then (chunkSentences maxc (splitSentences text) []).1
       else (chunkSentences maxc (splitSentences text) []).1
            ++ [pyStrip (chunkSentences maxc (splitSentences text) []).2])) = pySplitWs text
    by_cases hpe : (chunkSentences maxc (splitSentences text) []).2.isEmpty = true
    · have h2 : (chunkSentences maxc (splitSentences text) []).2 = [] := by
        cases hx : (chunkSentences maxc (splitSentences text) []).2 with
        | nil => rfl
        | cons a as =>
          rw [hx] at hpe
          exact absurd hpe (by simp)
      rw [if_pos hpe, pySplitWs_joinSp]
      rw [h2, hnil, List.append_nil] at hmain
      exact hmain
    · rw [if_neg hpe, pySplitWs_joinSp]
      simp only [List.map_append, List.flatten_append, List.map_cons, List.map_nil,
        List.flatten_cons, List.flatten_nil, List.append_nil]
      rw [pySplitWs_strip]
      exact hmain

/-- Claim C4 (counterexample): for input `"aa  bb."` with `maxChars = 5`,
no word exceeds the budget (so the truncation exception does not apply),
yet the word-level fallback collapses the double space: the concatenation
of the chunks does not reproduce the input's sentence sequence. -/
theorem chunk_text_not_sentence_exact :
    splitSentences (joinSp (chunk_text "aa  bb.".toList 5))
        ≠ splitSentences "aa  bb.".toList ∧
    joinSp (chunk_text "aa  bb.".toList 5) ≠ joinSp (splitSentences "aa  bb.".toList) ∧
    (pySplitWs "aa  bb.".toList).all (fun w => decide (w.length ≤ 5)) = true := by decide

theorem chunk_text_preserves_words_witness :
    pySplitWs (joinSp (chunk_text "one two. three four!  five.".toList 8))
      = pySplitWs "one two. three four!  five.".toList :=
  chunk_text_preserves_words _ 8 (by decide)

/-- A string containing at least one non-whitespace character (the
strings whose `strip()` is non-empty). -/
def nonBlank (s : Str) : Bool := s.any (fun c => !pySpace c)

theorem nonBlank_dropWhile (s : Str) (h : nonBlank s = true) :
    nonBlank (s.dropWhile pySpace) = true := by
  induction s with
  | nil => simp [nonBlank] at h
  | cons c cs ih =>
    by_cases hc : pySpace c
    · rw [List.dropWhile_cons_of_pos hc]
      apply ih
      simp only [nonBlank, List.any_cons, hc, Bool.not_true, Bool.false_or] at h
      exact h
    · rw [List.dropWhile_cons_of_neg hc]
      exact h

theorem nonBlank_reverse (s : Str) : nonBlank s.reverse = nonBlank s := by
  simp [nonBlank]

theorem strip_ne_nil (s : Str) (h : nonBlank s = true) : pyStrip s ≠ [] := by
  unfold pyStrip rstrip lstrip
  intro hcon
  rw [List.reverse_eq_nil_iff] at hcon
  have h1 : nonBlank (s.dropWhile pySpace) = true := nonBlank_dropWhile s h
  have h2 : nonBlank ((s.dropWhile pySpace).reverse) = true := by
    rw [nonBlank_reverse]
    exact h1
  have h3 := nonBlank_dropWhile _ h2
  rw [hcon] at h3
  simp [nonBlank] at h3

theorem nonBlank_of_word (w : Str) (h1 : w ≠ []) (h2 : w.all (fun c => !pySpace c) = true) :
    nonBlank w = true := by
  cases w with
  | nil => exact absurd rfl h1
  | cons c cs =>
    simp only [List.all_cons, Bool.and_eq_true] at h2
    simp [nonBlank, h2.1]

theorem nonBlank_cons_of (c : Char) (x : Str) (h : nonBlank x = true) :
    nonBlank (c :: x) = true := by
  simp only [nonBlank] at h ⊢
  simp [List.any_cons, h]

theorem nonBlank_append_right (a b : Str) (h : nonBlank b = true) :
    nonBlank (a ++ b) = true := by
  simp only [nonBlank] at h ⊢
  simp [List.any_append, h]

theorem nonBlank_append_left (a b : Str) (h : nonBlank a = true) :
    nonBlank (a ++ b) = true := by
  simp only [nonBlank] at h ⊢
  simp [List.any_append, h]

theorem sentEnd_not_space (c : Char) (h : isSentEnd c = true) : pySpace c = false := by
  simp only [isSentEnd, Bool.or_eq_true, decide_eq_true_eq] at h
  rcases h with (h | h) | h <;> subst h <;> decide

theorem space_not_sentEnd (c : Char) (h : pySpace c = true) : isSentEnd c = false := by
  simp only [pySpace, Bool.or_eq_true, decide_eq_true_eq] at h
  rcases h with ((((h | h) | h) | h) | h) | h <;> subst h <;> decide

theorem dropWhile_head_or_nil (p : Char → Bool) (l : Str) :
    l.dropWhile p = [] ∨ ∃ d ds, l.dropWhile p = d :: ds ∧ p d = false := by
  induction l with
  | nil => exact Or.inl rfl
  | cons c cs ih =>
    by_cases h : p c
    · rw [List.dropWhile_cons_of_pos h]
      exact ih
    · rw [List.dropWhile_cons_of_neg h]
      exact Or.inr ⟨c, cs, rfl, by simpa using h⟩

theorem ssAux_pieces : ∀ (fuel : Nat) (s : Str) (prev : Char), s.length ≤ fuel →
    (∀ p ∈ (ssAux fuel s prev).2, p = [] ∨ nonBlank p = true) ∧
    ((ssAux fuel s prev).1 = [] ∨ nonBlank (ssAux fuel s prev).1 = true ∨
      ((ssAux fuel s prev).1 = s ∧ (ssAux fuel s prev).2 = [])) := by
  intro fuel
  induction fuel with
  | zero =>
    intro s prev h
    have hs : s = [] := List.length_eq_zero.mp (Nat.le_zero.mp h)
    subst hs
    exact ⟨by simp [ssAux], Or.inl rfl⟩
  | succ fuel ih =>
    intro s prev h
    cases s with
    | nil => exact ⟨by simp [ssAux], Or.inl rfl⟩
    | cons c cs =>
      by_cases hcut : (pySpace c && isSentEnd prev) = true
      · have hc : pySpace c = true := by
          simp only [Bool.and_eq_true] at hcut
          exact hcut.1
        have hr : ((c :: cs).dropWhile pySpace).length ≤ fuel := by
          rw [List.dropWhile_cons_of_pos hc]
          exact le_trans (length_dropWhile_le_self pySpace cs) (by simpa using h)
        have ihq := ih ((c :: cs).dropWhile pySpace) ' ' hr
        constructor
        · simp only [ssAux, hcut, if_true]
          intro p hp
          rcases List.mem_cons.mp hp with h1 | h1
          · subst h1
            rcases ihq.2 with h2 | h2 | h2
            · exact Or.inl h2
            · exact Or.inr h2
            · rcases dropWhile_head_or_nil pySpace (c :: cs) with h3 | ⟨d, ds, h3, h4⟩
              · rw [h2.1, h3]
                exact Or.inl (by trivial)
              · rw [h2.1, h3]
                refine Or.inr ?_
                simp [nonBlank, h4]
          · exact ihq.1 p h1
        · simp only [ssAux, hcut, if_true]
          exact Or.inl (by trivial)
      · have hlen : cs.length ≤ fuel := by simpa using h
        have ihq := ih cs c hlen
        constructor
        · simp only [ssAux, hcut, Bool.false_eq_true, if_false]
          exact ihq.1
        · simp only [ssAux, hcut, Bool.false_eq_true, if_false]
          rcases ihq.2 with h2 | h2 | h2
          · cases cs with
            | nil =>
              have hz : ssAux fuel [] c = ([], []) := by
                cases fuel <;> rfl
              rw [hz]
              exact Or.inr (Or.inr ⟨rfl, rfl⟩)
            | cons d ds =>
              cases fuel with
              | zero => simp at hlen
              | succ f2 =>
                by_cases hcut2 : (pySpace d && isSentEnd c) = true
                · have hce : isSentEnd c = true := by
                    simp only [Bool.and_eq_true] at hcut2
                    exact hcut2.2
                  have hcs : pySpace c = false := sentEnd_not_space c hce
                  rw [h2]
                  refine Or.inr (Or.inl ?_)
                  simp [nonBlank, hcs]
                · exfalso
                  have hstep : (ssAux (f2 + 1) (d :: ds) c).1 = d :: (ssAux f2 ds d).1 := by
                    simp [ssAux, hcut2]
                  rw [hstep] at h2
                  exact List.cons_ne_nil _ _ h2
          · exact Or.inr (Or.inl (nonBlank_cons_of c _ h2))
          · refine Or.inr (Or.inr ⟨?_, h2.2⟩)
            rw [h2.1]

theorem splitSentences_pieces (text : Str) (h : nonBlank text = true) :
    ∀ s ∈ splitSentences text, s = [] ∨ nonBlank s = true := by
  unfold splitSentences
  intro s hs
  have hp := ssAux_pieces text.length text ' ' le_rfl
  rcases List.mem_cons.mp hs with h1 | h1
  · subst h1
    rcases hp.2 with h2 | h2 | h2
    · exact Or.inl h2
    · exact Or.inr h2
    · rw [h2.1]
      exact Or.inr h
  · exact hp.1 s h1

theorem ssAux_nocut : ∀ (fuel : Nat) (s : Str) (prev : Char),
    (∀ c ∈ s, isSentEnd c = false) → isSentEnd prev = false →
    ssAux fuel s prev = (s, []) := by
  intro fuel
  induction fuel with
  | zero => intro s prev _ _; rfl
  | succ fuel ih =>
    intro s prev hall hprev
    cases s with
    | nil => rfl
    | cons c cs =>
      have hcut : (pySpace c && isSentEnd prev) = false := by
        simp [hprev]
      simp only [ssAux, hcut, Bool.false_eq_true, if_false]
      rw [ih cs c (fun d hd => hall d (List.mem_cons_of_mem c hd)) (hall c (List.mem_cons_self c cs))]

theorem chunkWords_nonempty (maxc : Nat) (hm : 1 ≤ maxc) : ∀ (ws : List Str) (cur : Str),
    (∀ w ∈ ws, w ≠ [] ∧ w.all (fun c => !pySpace c) = true) →
    (cur = [] ∨ nonBlank cur = true) →
    (∀ ch ∈ (chunkWords maxc ws cur).1, ch ≠ []) ∧
    ((chunkWords maxc ws cur).2 = [] ∨ nonBlank (chunkWords maxc ws cur).2 = true) := by
  intro ws
  induction ws with
  | nil =>
    intro cur _ hcur
    exact ⟨by simp [chunkWords], hcur⟩
  | cons w ws ih =>
    intro cur h hcur
    obtain ⟨hw1, hw2⟩ := h w (List.mem_cons_self w ws)
    have hwnb : nonBlank w = true := nonBlank_of_word w hw1 hw2
    have hrest := fun w' hw' => h w' (List.mem_cons_of_mem w hw')
    by_cases hfit : cur.length + w.length + 1 > maxc
    · by_cases hemp : cur.isEmpty = true
      · have ihr := ih cur hrest hcur
        simp only [chunkWords, if_pos hfit, hemp, if_true]
        refine ⟨?_, ihr.2⟩
        intro ch hch
        rcases List.mem_cons.mp hch with h1 | h1
        · subst h1
          obtain ⟨m, rfl⟩ : ∃ m, maxc = m + 1 := ⟨maxc - 1, by omega⟩
          cases w with
          | nil => exact absurd rfl hw1
          | cons a as => simp [List.take]
        · exact ihr.1 ch h1
      · have hemp2 : cur.isEmpty = false := by simpa using hemp
        have hcur2 : nonBlank cur = true := by
          rcases hcur with h1 | h1
          · rw [h1] at hemp2
            simp at hemp2
          · exact h1
        have ihr := ih w hrest (Or.inr hwnb)
        simp only [chunkWords, if_pos hfit, hemp2, Bool.false_eq_true, if_false]
        refine ⟨?_, ihr.2⟩
        intro ch hch
        rcases List.mem_cons.mp hch with h1 | h1
        · subst h1
          exact strip_ne_nil cur hcur2
        · exact ihr.1 ch h1
    · simp only [chunkWords, if_neg hfit]
      apply ih _ hrest
      by_cases hemp : cur.isEmpty = true
      · simp only [hemp, if_true]
        exact Or.inr hwnb
      · have hemp2 : cur.isEmpty = false := by simpa using hemp
        simp only [hemp2, Bool.false_eq_true, if_false]
        exact Or.inr (nonBlank_append_right cur (' ' :: w) (nonBlank_cons_of ' ' w hwnb))

theorem chunkSentences_nonempty (maxc : Nat) (hm : 1 ≤ maxc) : ∀ (ss : List Str) (cur : Str),
    (∀ s ∈ ss, s = [] ∨ nonBlank s = true) →
    (cur = [] ∨ nonBlank cur = true) →
    (∀ ch ∈ (chunkSentences maxc ss cur).1, ch ≠ []) ∧
    ((chunkSentences maxc ss cur).2 = [] ∨ nonBlank (chunkSentences maxc ss cur).2 = true) := by
  intro ss
  induction ss with
  | nil =>
    intro cur _ hcur
    exact ⟨by simp [chunkSentences], hcur⟩
  | cons s ss ih =>
    intro cur h hcur
    have hs := h s (List.mem_cons_self s ss)
    have hrest := fun s' hs' => h s' (List.mem_cons_of_mem s hs')
    by_cases hfit : cur.length + s.length + 1 > maxc
    · by_cases hemp : cur.isEmpty = true
      · have hcur0 : cur = [] := by
          cases cur with
          | nil => rfl
          | cons a as => simp at hemp
        subst hcur0
        have hwords : ∀ w ∈ pySplitWs s, w ≠ [] ∧ w.all (fun c => !pySpace c) = true :=
          fun w hw => pySplitWs_mem s w hw
        have hw := chunkWords_nonempty maxc hm (pySplitWs s) [] hwords (Or.inl rfl)
        have hss := ih (chunkWords maxc (pySplitWs s) []).2 hrest hw.2
        simp only [chunkSentences, if_pos hfit, List.isEmpty_nil, if_true]
        refine ⟨?_, hss.2⟩
        intro ch hch
        rcases List.mem_append.mp hch with h1 | h1
        · exact hw.1 ch h1
        · exact hss.1 ch h1
      · have hemp2 : cur.isEmpty = false := by simpa using hemp
        have hcur2 : nonBlank cur = true := by
          rcases hcur with h1 | h1
          · rw [h1] at hemp2
            simp at hemp2
          · exact h1
        have ihr := ih s hrest hs
        simp only [chunkSentences, if_pos hfit, hemp2, Bool.false_eq_true, if_false]
        refine ⟨?_, ihr.2⟩
        intro ch hch
        rcases List.mem_cons.mp hch with h1 | h1
        · subst h1
          exact strip_ne_nil cur hcur2
        · exact ihr.1 ch h1
    · simp only [chunkSentences, if_neg hfit]
      apply ih _ hrest
      by_cases hemp : cur.isEmpty = true
      · simp only [hemp, if_true]
        exact hs
      · have hemp2 : cur.isEmpty = false := by simpa using hemp
        have hcur2 : nonBlank cur = true := by
          rcases hcur with h1 | h1
          · rw [h1] at hemp2
            simp at hemp2
          · exact h1
        simp only [hemp2, Bool.false_eq_true, if_false]
        exact Or.inr (nonBlank_append_left cur (' ' :: s) hcur2)

/-- Claim C9 (amended): for every non-empty input text and every
`maxChars ≥ 1`, every chunk returned by `chunk_text` is non-empty (the
empty input yields `[""]` and `maxChars = 0` can emit `""` via
truncation, so both exclusions are necessary). -/
theorem chunk_text_chunks_nonempty (text : Str) (maxc : Nat)
    (ht : text ≠ []) (hm : 1 ≤ maxc) :
    ∀ ch ∈ chunk_text text maxc, ch ≠ [] := by
  unfold chunk_text
  by_cases hlen : text.length ≤ maxc
  · rw [if_pos hlen]
    intro ch hch
    rw [List.mem_singleton] at hch
    subst hch
    exact ht
  · rw [if_neg hlen]
    show ∀ ch ∈ (if (chunkSentences maxc (splitSentences text) []).2.isEmpty
        then (chunkSentences maxc (splitSentences text) []).1
        else (chunkSentences maxc (splitSentences text) []).1
          ++ [pyStrip (chunkSentences maxc (splitSentences text) []).2]), ch ≠ []
    by_cases hnb : nonBlank text = true
    · have hsp := splitSentences_pieces text hnb
      have hinv := chunkSentences_nonempty maxc hm (splitSentences text) [] hsp (Or.inl rfl)
      by_cases hpe : (chunkSentences maxc (splitSentences text) []).2.isEmpty = true
      · rw [if_pos hpe]
        exact hinv.1
      · rw [if_neg hpe]
        intro ch hch
        rcases List.mem_append.mp hch with h1 | h1
        · exact hinv.1 ch h1
        · rw [List.mem_singleton] at h1
          subst h1
          have h2 : nonBlank (chunkSentences maxc (splitSentences text) []).2 = true := by
            rcases hinv.2 with h3 | h3
            · rw [h3] at hpe
              exact absurd rfl hpe
            · exact h3
          exact strip_ne_nil _ h2
    · have hnb2 : nonBlank text = false := by simpa using hnb
      have hall : text.all pySpace = true := by
        rw [List.all_eq_true]
        intro c hc
        by_contra hcc
        have : nonBlank text = true := by
          simp only [nonBlank, List.any_eq_true]
          exact ⟨c, hc, by simpa using hcc⟩
        rw [this] at hnb2
        exact absurd hnb2 (by simp)
      have hnosent : ∀ c ∈ text, isSentEnd c = false := fun c hc =>
        space_not_sentEnd c (List.all_eq_true.mp hall c hc)
      have hsplit : splitSentences text = [text] := by
        unfold splitSentences
        rw [ssAux_nocut text.length text ' ' hnosent (by decide)]
      rw [hsplit]
      have hcond : ([] : Str).length + text.length + 1 > maxc := by
        simp only [List.length_nil, Nat.zero_add]
        omega
      have htok : pySplitWs text = [] := by
        unfold pySplitWs
        rw [tokensAux_all_space text [] hall]
        rfl
      have hcs : chunkSentences maxc [text] [] = ([], []) := by
        simp only [chunkSentences, if_pos hcond, List.isEmpty_nil, if_true, htok]
        rfl
      rw [hcs]
      intro ch hch
      simp at hch

/-- Witness for the amended C9 at a concrete input. -/
theorem chunk_text_chunks_nonempty_witness :
    (chunk_text "a. bb.".toList 3).all (fun ch => !ch.isEmpty) = true := by
  have h := chunk_text_chunks_nonempty "a. bb.".toList 3 (by decide) (by decide)
  rw [List.all_eq_true]
  intro ch hch
  have := h ch hch
  cases ch with
  | nil => exact absurd rfl this
  | cons a as => simp


end TranscriptAudio
